import Mathlib

/-!
# Verification of the internetnl domain-analysis pipeline

Shallow embedding of the repository's three modules
(`domein_analyse.py`, `domain_analyse_classes.py`, `utils.py`)
and proofs about the claims of its specification.

Conventions used throughout:
* Python `None` becomes `Option.none`; a missing/NaN cell is explicit.
* A pandas cell is modelled by `Cell`: a string, an (integral) float, or the
  float NaN.  Floating point values occurring in this code are integral
  (translation targets such as 0 and 1), so `Int` carries them exactly.
* Strings handled character by character (domain extraction) are modelled as
  lists of characters; `codes` converts a literal.

The file is organised as definitions first, then lemmas and the claim
theorems.
-/

namespace DomainAnalyse

/-! # Part 1: Definitions -/

/-! ## Reset / cache state machine (`DomainAnalyser.__init__`,
`DomainAnalyser.read_data`, `DomainAnalyser.calculate_statistics`) -/

/-- `__init__`: `if reset is None: self.reset = None else: self.reset = int(reset)`.
The CLI driver passes the boolean `--reset` store-true flag, and Python's
`int(False) = 0`, `int(True) = 1`. -/
def effectiveReset (reset : Option Bool) : Option Int :=
  reset.map (fun b => if b then 1 else 0)

/-- `__init__`:
`if (self.reset is not None and self.reset <= 1) or not self.cache_file.exists(): self.read_data()`. -/
def datasetBuildStepRuns (R : Option Int) (datasetCacheExists : Bool) : Bool :=
  (match R with
   | some r => decide (r ≤ 1)
   | none => false) || !datasetCacheExists

/-- `read_data`: `if not self.cache_file.exists() or self.reset == 0:` rebuild the
merged dataset from the two source sqlite files, `else` load the pickle cache. -/
def datasetRebuiltFromSource (R : Option Int) (datasetCacheExists : Bool) : Bool :=
  !datasetCacheExists || (R == some 0)

/-- `calculate_statistics`: `if cache_file.exists() and self.reset is None:` load the
per-breakdown statistics pickle, `else` recompute the statistics and overwrite it. -/
def statisticsCacheReused (R : Option Int) (statsCacheExists : Bool) : Bool :=
  statsCacheExists && (R == none)

/-! ## The driver's constructor call (`domein_analyse.main`,
`DomainAnalyser.__init__` parameter list) -/

/-- The parameter names declared by `DomainAnalyser.__init__`
(`domain_analyse_classes.py` lines 34-61), besides `self`. -/
def domainAnalyserParams : List String :=
  ["cache_file", "cache_directory", "image_directory", "tex_prepend_path",
   "output_file", "reset", "records_filename", "internet_nl_filename",
   "statistics", "variables", "module_info", "weights", "url_key",
   "translations", "breakdown_labels", "module_key", "variable_key",
   "sheet_renames", "n_digits", "write_dataframe_to_sqlite",
   "statistics_to_xls", "plot_statistics", "plot_info", "show_plots",
   "image_type", "max_plots"]

/-- The keyword-argument names of the `DomainAnalyser(...)` call in
`domein_analyse.main` (lines 70-78). -/
def driverConstructorKwargs : List String :=
  ["reset", "output_file", "statistics", "gk_data", "variables", "weights",
   "translations"]

/-- Python accepts a keyword call iff every keyword names a declared parameter
(the constructor declares no `**kwargs` catch-all); otherwise the call raises
`TypeError: unexpected keyword argument`. -/
def callAccepted (params kwargs : List String) : Bool :=
  kwargs.all (fun k => params.contains k)

/-! ## Merged-dataset construction (`DomainAnalyser.read_data`, lines 339-346)

```python
self.dataframe = pd.merge(left=records, right=tables, on=self.url_key)
self.dataframe.dropna(subset=[self.weight_key], axis='index', how='any', inplace=True)
mask = self.dataframe[self.be_id].duplicated()
self.dataframe = self.dataframe[~mask]
```
`records` rows carry the business-entity identifier `be_id`, the extracted
domain and the weight column; `tables` rows carry the extracted domain and the
scan payload.  `pd.merge` with default `how="inner"` keeps exactly the pairs of
rows agreeing on the join key, left rows in order, each matched against the
right rows in order.  `duplicated()` marks a row whose `be_id` occurred in an
earlier row, so `df[~mask]` keeps the first occurrence of each `be_id`. -/

/-- A row of the register-side table (`records_df_2` + `info_records_df`),
after the domain column has been derived: `be_id`, join key, weight cell
(`none` models a missing/NaN weight). -/
structure RegRow (α : Type) where
  be_id : Nat
  domain : α
  weight : Option Int
  deriving DecidableEq, Repr

/-- A row of the scan-result table (`report`+`scoring`+`status`+`results`)
after domain derivation, with its payload abstracted to one value. -/
structure ScanRow (α : Type) where
  domain : α
  payload : Int
  deriving DecidableEq, Repr

/-- A row of the merged dataset: the register columns next to the scan
columns of a pair of rows that agreed on the join key. -/
structure MergedRow (α : Type) where
  be_id : Nat
  domain : α
  weight : Option Int
  payload : Int
  deriving DecidableEq, Repr

/-- `pd.merge(left=records, right=tables, on=url_key)` with the default inner
join: for each left row in order, one output row per right row with an equal
join key, in right order. -/
def innerJoin {α : Type} [DecidableEq α] (records : List (RegRow α))
    (tables : List (ScanRow α)) : List (MergedRow α) :=
  records.flatMap (fun r =>
    (tables.filter (fun s => s.domain = r.domain)).map
      (fun s => ⟨r.be_id, r.domain, r.weight, s.payload⟩))

/-- `dropna(subset=[self.weight_key])`: keep the rows whose weight cell is not
missing. -/
def dropMissingWeight {α : Type} (rows : List (MergedRow α)) : List (MergedRow α) :=
  rows.filter (fun r => r.weight.isSome)

/-- `duplicated()` walks the rows keeping a seen-set of `be_id` values and
marks the rows whose `be_id` was already seen; `df[~mask]` keeps the rest. -/
def dropDuplicatedBeIdAux {α : Type} (seen : List Nat) :
    List (MergedRow α) → List (MergedRow α)
  | [] => []
  | r :: rs =>
    if r.be_id ∈ seen then dropDuplicatedBeIdAux seen rs
    else r :: dropDuplicatedBeIdAux (r.be_id :: seen) rs

/-- `self.dataframe = self.dataframe[~self.dataframe[self.be_id].duplicated()]`. -/
def dropDuplicatedBeId {α : Type} (rows : List (MergedRow α)) : List (MergedRow α) :=
  dropDuplicatedBeIdAux [] rows

/-- The dataset-construction tail of `read_data`: inner join on the domain
key, drop rows with a missing weight, drop repeated `be_id` rows (first
occurrence wins). -/
def buildMergedDataset {α : Type} [DecidableEq α] (records : List (RegRow α))
    (tables : List (ScanRow α)) : List (MergedRow α) :=
  dropDuplicatedBeId (dropMissingWeight (innerJoin records tables))

/-! ## Cells and the translation helpers (`utils.fill_booleans`,
`DomainAnalyser.read_data` per-column translation) -/

/-- A pandas cell as this pipeline uses it: a string value, an integral float
(all numeric values in play are translation targets such as 0 and 1), or the
float NaN. -/
inductive Cell where
  | str : String → Cell
  | num : Int → Cell
  | nan : Cell
  deriving DecidableEq, Repr

/-- Python/numpy `==` on cells: strings compare by content, numbers by value,
NaN compares unequal to everything (itself included), and a string never
equals a number. -/
def pyEq : Cell → Cell → Bool
  | Cell.str a, Cell.str b => a == b
  | Cell.num a, Cell.num b => a == b
  | _, _ => false

/-- Order-of-first-appearance deduplication with a seen accumulator
(`pandas.Series.unique`, which reports each distinct value once, in order of
appearance). -/
def uniqueAux {α : Type} [DecidableEq α] (seen : List α) : List α → List α
  | [] => []
  | c :: cs =>
    if c ∈ seen then uniqueAux seen cs
    else c :: uniqueAux (c :: seen) cs

/-- `tables[col].unique()`: the distinct values of a column, in order of first
appearance. -/
def uniqueVals {α : Type} [DecidableEq α] (col : List α) : List α :=
  uniqueAux [] col

/-- A translation entry (`trans_prop`): an insertion-ordered dict from source
values to numeric targets; a `none` target models the NaN inserted by
`fill_booleans`.  Keys are cells because `trans_prop[list(nan_val)[0]] = np.nan`
keys the dict by an observed cell value. -/
abbrev TransEntry := List (Cell × Option Int)

/-- The `translations` mapping: translation-set name to entry, insertion
ordered. -/
abbrev Translations := List (String × TransEntry)

/-- `float(val)` on a translation target: a number stays a (float) number and
`float(np.nan)` is NaN. -/
def cellOfTarget : Option Int → Cell
  | some v => Cell.num v
  | none => Cell.nan

/-- One masked assignment of `fill_booleans`:
`mask = tables[col] == key; if any(mask): tables.loc[mask, col] = float(val)` —
every cell Python-equal to the source key is overwritten with the target. -/
def applyItem (col : List Cell) (key : Cell) (val : Option Int) : List Cell :=
  if col.any (fun c => pyEq c key) then
    col.map (fun c => if pyEq c key then cellOfTarget val else c)
  else col

/-- The `for key, val in trans_prop.items()` assignment loop of
`fill_booleans`, in dict insertion order. -/
def applyItems (items : TransEntry) (col : List Cell) : List Cell :=
  items.foldl (fun acc kv => applyItem acc kv.1 kv.2) col

/-- The body of `fill_booleans`' `for trans_key, trans_prop in
translations.items()` loop for one entry, given the column's (stale, computed
once per column) unique values:
`bool_keys.intersection(unique_values)` gates the entry; on a hit,
`nan_val = set(unique_values).difference(bool_keys)` and, when non-empty, one
of its elements is inserted into the entry with target `np.nan`
(`trans_prop[list(nan_val)[0]] = np.nan`; Python set iteration order is
unspecified — this model takes the first uncovered value in order of
appearance), then the masked assignments run with the updated entry.
Returns the updated column and entry. -/
def fillBoolEntryStep (uniq : List Cell) (col : List Cell)
    (entry : TransEntry) : List Cell × TransEntry :=
  let boolKeys := entry.map Prod.fst
  let intersection := uniq.filter (fun u => boolKeys.any (fun k => pyEq u k))
  if intersection.isEmpty then (col, entry)
  else
    let uncovered := uniq.filter (fun u => !(boolKeys.any (fun k => pyEq u k)))
    let entry2 :=
      match uncovered with
      | [] => entry
      | u :: _ => entry ++ [(u, none)]
    (applyItems entry2 col, entry2)

/-- `fill_booleans`' entries loop over the whole `translations` dict for one
column, threading the column and the (mutated in place) entries. -/
def fillBoolEntriesLoop (uniq : List Cell) :
    Translations → List Cell → List Cell × Translations
  | [], col => (col, [])
  | (nm, e) :: rest, col =>
    let r1 := fillBoolEntryStep uniq col e
    let r2 := fillBoolEntriesLoop uniq rest r1.1
    (r2.1, (nm, r1.2) :: r2.2)

/-- `fill_booleans` for one column: columns typed `dict` in the
variable-metadata table are skipped (`convert_to_bool = False`; a `KeyError`
on the metadata lookup leaves `convert_to_bool = True`), and only columns
with at most 3 distinct observed values are considered. -/
def fillBoolColumn (varType : Option String) (transs : Translations)
    (col : List Cell) : List Cell × Translations :=
  let convert := match varType with
    | some t => t != "dict"
    | none => true
  if convert then
    let uniq := uniqueVals col
    if uniq.length ≤ 3 then fillBoolEntriesLoop uniq transs col
    else (col, transs)
  else (col, transs)

/-- Python dict lookup in an insertion-ordered association list. -/
def alistLookup {β : Type} (l : List (String × β)) (k : String) : Option β :=
  (l.find? (fun p => p.1 == k)).map Prod.snd

/-- `utils.fill_booleans(tables, translations, variables)`: every column of
the table in order, threading the shared `translations` object (its entries
are Python dicts mutated in place, so an insertion made while processing one
column is seen by all later columns and by the caller). -/
def fill_booleans (varTypes : List (String × String)) :
    List (String × List Cell) → Translations →
    List (String × List Cell) × Translations
  | [], transs => ([], transs)
  | (name, col) :: rest, transs =>
    let r1 := fillBoolColumn (alistLookup varTypes name) transs col
    let r2 := fill_booleans varTypes rest r1.2
    ((name, r1.1) :: r2.1, r2.2)

/-! ## Per-variable value translation (`DomainAnalyser.read_data`,
lines 314-332)

```python
trans = yaml.load(str(var_translate), Loader=yaml.Loader)
if set(trans.keys()).intersection(set(tables[column].unique())):
    tables[column] = tables[column].map(trans)
```
`Series.map(dict)` sends **every** cell through the dict; a cell whose value
is not a key of the dict becomes NaN. -/

/-- pandas `Series.map(trans)` on one cell: look the cell up among the
translation's source keys (strings, from the yaml `translateopts` literal);
an uncovered cell becomes NaN. -/
def seriesMapCell (trans : List (String × Int)) (c : Cell) : Cell :=
  match trans.find? (fun kv => pyEq c (Cell.str kv.1)) with
  | some kv => Cell.num kv.2
  | none => Cell.nan

/-- The gate `set(trans.keys()).intersection(set(tables[column].unique()))`:
some source key occurs among the column's observed values. -/
def translationApplies (trans : List (String × Int)) (col : List Cell) : Bool :=
  (uniqueVals col).any (fun u => trans.any (fun kv => pyEq u (Cell.str kv.1)))

/-- The per-column value-translation step of `read_data`: apply
`Series.map(trans)` iff some source key occurs among the observed values,
else leave the column alone. -/
def applyVarTranslation (trans : List (String × Int)) (col : List Cell) :
    List Cell :=
  if translationApplies trans col then col.map (seriesMapCell trans)
  else col

/-- Is the cell a string value?  (Used to state hypotheses about columns as
read from sqlite, whose raw values are strings.) -/
def isStrCell : Cell → Bool
  | Cell.str _ => true
  | _ => false

/-- One cell sent through the assignment loop of `fill_booleans`: each item in
order overwrites the cell when it Python-equals the item's source key. -/
def cellThroughItems (items : TransEntry) (c : Cell) : Cell :=
  items.foldl (fun a kv => if pyEq a kv.1 then cellOfTarget kv.2 else a) c

/-- Specification-side description of a cell after boolean-fill translation
by an entry: its (float) target when some source key covers it, NaN when
none does. -/
def translatedCell (entry : TransEntry) (c : Cell) : Cell :=
  match entry.find? (fun kv => pyEq c kv.1) with
  | some kv => cellOfTarget kv.2
  | none => Cell.nan

/-! ## Option mask (`utils.get_option_mask`, `DomainAnalyser.make_plots`
lines 411-412) -/

/-- A row of a reorganised per-question statistics table as sliced during
plotting: three index levels (module, question, option label) and the
`variable` column. -/
structure QRow where
  module : String
  question : String
  opt : String
  varName : String
  deriving DecidableEq, Repr

/-- `re.sub(r"_\d\.0$", "", s)`: strip a trailing breakdown suffix of the
form `_<digit>.0` to recover the canonical variable name. -/
def stripVariantTail (s : String) : String :=
  match s.data.reverse with
  | '0' :: '.' :: d :: '_' :: rest =>
    if d.isDigit then String.mk rest.reverse else s
  | _ => s

/-- The typed core of the option mask: for a `dict` question the rows whose
third index level is `"Passed"`, `"Yes"` or `"Good"` (the source builds the
mask as the pointwise OR of the three equality masks over
`question_df.index.get_level_values(2)`); for any other type
`pd.Series(True, index=question_df.index)`, i.e. every row. -/
def optionMaskFor (question_type : String) (question_df : List QRow) :
    List Bool :=
  if question_type = "dict" then
    question_df.map (fun r =>
      decide (r.opt = "Passed") || decide (r.opt = "Yes")
        || decide (r.opt = "Good"))
  else question_df.map (fun _ => true)

/-- `utils.get_option_mask(question_df, variables)`: derive the canonical
name from `question_df["variable"].values[0]` (an empty table raises, hence
`none`), look its `type` up in the variable-metadata table (a missing entry
raises `KeyError`, hence `none`), then build the mask. -/
def get_option_mask (question_df : List QRow)
    (varsMeta : List (String × String)) : Option (List Bool) :=
  match question_df.map QRow.varName with
  | [] => none
  | v :: _ =>
    match alistLookup varsMeta (stripVariantTail v) with
    | none => none
    | some question_type => some (optionMaskFor question_type question_df)

/-- Modelled from the spec: the option-mask form taking the question type as
an explicit parameter.  `make_plots` calls
`get_option_mask(question_df=..., variables=..., question_type=...)`, but no
definition accepting a `question_type` parameter is among the source files
(only this call site is); per the spec the two forms are otherwise identical
— for a `dict`-typed variable select exactly the option rows whose third
index level is one of the literal labels `"Passed"`, `"Yes"`, `"Good"`, and
for any other type select all rows. -/
def get_option_mask_explicit (question_df : List QRow)
    (question_type : String) : List Bool :=
  question_df.map (fun r =>
    if question_type = "dict" then
      decide (r.opt = "Passed" ∨ r.opt = "Yes" ∨ r.opt = "Good")
    else true)

/-! ## Sheet-name resolution (`DomainAnalyser.write_statistics`,
lines 179-191)

```python
sheet_name = file_base
... sheet_renames (None here) ...
if len(sheet_name) > 32:
    sheet_name = sheet_name[:32]
if sheet_name in sheets:
    sheet_name = sheet_name[:30] + "{:02d}".format(cnt)
cnt += 1
sheets.append(sheets)
stat_df.to_excel(writer, sheet_name)
```
Note the last append: the accumulator list is appended **to itself**, not the
sheet name. -/

/-- Python character-based slicing `s[:n]`. -/
def strTake (s : String) (n : Nat) : String := String.mk (s.data.take n)

/-- An element of the `sheets` accumulator as the membership test can observe
it: a string, or a (self-referential) list object.  Python's `in` compares
with `==`, and a string never equals a list. -/
inductive PyObj where
  | str : String → PyObj
  | listref : PyObj
  deriving DecidableEq, Repr

/-- Python `"{:02d}".format(cnt)`: the decimal digits, zero-padded on the
left to width two. -/
def fmt02 (n : Nat) : String :=
  if n < 10 then "0" ++ toString n else toString n

/-- The sheet-name loop of `write_statistics` as written (with
`sheet_renames = None`): because `sheets.append(sheets)` appends the list
object itself, `sheets` only ever holds list objects, so
`sheet_name in sheets` compares a string against lists and is always
false. -/
def sheetNamesCodeAux : List String → List PyObj → Nat → List String
  | [], _, _ => []
  | n :: rest, sheets, cnt =>
    let s1 := if n.length > 32 then strTake n 32 else n
    let s2 := if sheets.contains (PyObj.str s1) then strTake s1 30 ++ fmt02 cnt
              else s1
    s2 :: sheetNamesCodeAux rest (sheets ++ [PyObj.listref]) (cnt + 1)

/-- The sheet names `write_statistics` actually uses, one per breakdown in
export order (`sheet_renames = None`). -/
def sheetNamesCode (names : List String) : List String :=
  sheetNamesCodeAux names [] 0

/-- The sheet-name resolution the claim describes — the accumulator records
each sheet name actually used (`sheets.append(sheet_name)`): truncate to 32
characters; if the result was already used, take the first 30 characters and
append the two-digit zero-padded counter. -/
def sheetNamesSpecAux : List String → List String → Nat → List String
  | [], _, _ => []
  | n :: rest, used, cnt =>
    let s1 := if n.length > 32 then strTake n 32 else n
    let s2 := if used.contains s1 then strTake s1 30 ++ fmt02 cnt else s1
    s2 :: sheetNamesSpecAux rest (used ++ [s2]) (cnt + 1)

/-- The sheet names the claim's collision rule would produce. -/
def sheetNamesSpec (names : List String) : List String :=
  sheetNamesSpecAux names [] 0

/-! ## Dataset-export duplicate columns (`DomainAnalyser.write_data`,
lines 277-289)

```python
count_per_lower_col = Counter([col.lower() for col in self.dataframe.columns])
for col_lower, multiplicity in count_per_lower_col.items():
    if multiplicity > 1:
        for col in self.dataframe.columns:
            if col.lower() == col_lower:
                self.dataframe.drop([col], axis=1, inplace=True)
                break
```
-/

/-- Python `str.lower` on a column name (character-wise; `Char.toLower`
matches it on the basic Latin letters column names use). -/
def lowerStr (s : String) : String := String.mk (s.data.map Char.toLower)

/-- `Counter([col.lower() for col in columns])` iterated with `.items()`:
the distinct lowercased names, in first-appearance order (Counter preserves
insertion order). -/
def counterKeys (cols : List String) : List String :=
  uniqueVals (cols.map lowerStr)

/-- The multiplicity the Counter records for a lowercased name (computed
once, on the original column list). -/
def countLower (cols : List String) (g : String) : Nat :=
  (cols.filter (fun c => lowerStr c == g)).length

/-- One duplicated-group iteration: walk the current columns in order, find
the first whose lowercase equals the group key, drop it by label
(`DataFrame.drop([col])` removes every column bearing that label) and
`break`. -/
def dropFirstOfGroup (cols : List String) (g : String) : List String :=
  match cols.find? (fun c => lowerStr c == g) with
  | some c => cols.filter (fun x => x ≠ c)
  | none => cols

/-- The duplicate-column pass of `write_data`: for each Counter key with
multiplicity above 1, drop the first matching column of the current table. -/
def write_data_columns (cols : List String) : List String :=
  (counterKeys cols).foldl
    (fun acc g => if 1 < countLower cols g then dropFirstOfGroup acc g
      else acc)
    cols

/-- Specification-side survival predicate: a column survives the export's
duplicate pass unless its lowercased name is duplicated and it bears the
name of its case-insensitive group's first column. -/
def survivesExport (cols : List String) (c : String) : Bool :=
  !(decide (1 < countLower cols (lowerStr c))
    && (cols.find? (fun x => lowerStr x == lowerStr c) == some c))

/-- Proof-side survival predicate after a set `S` of group keys has been
processed: a column is gone iff its group key is in `S`, is duplicated, and
the column bears the name of its group's first column. -/
def keepAfterGroups (cols : List String) (S : List String) (c : String) :
    Bool :=
  !(decide (lowerStr c ∈ S)
    && decide (1 < countLower cols (lowerStr c))
    && (cols.find? (fun x => lowerStr x == lowerStr c) == some c))

/-! ## Domain extraction (`utils.get_domain`)

```python
def get_domain(url):
    try:
        tld = tldextract.extract(url)
    except TypeError:
        domain = None
    else:
        domain = tld.domain.lower()
    return domain
```
`tldextract.extract` strips an optional `scheme://` prefix, cuts the netloc
at the first `/`, keeps the part after the last `@` (userinfo) and before the
first `:` (port), splits the host on `.`, and matches the longest possible
tail of labels (candidates tried longest first, the whole host included)
case-insensitively against the public-suffix list; `domain` is the label
just before the matched suffix (empty when the whole host is a suffix).
On a non-string input the library's scheme regex raises `TypeError`.
Hosts are lists of characters here; the public-suffix list `psl` is a
parameter, holding lowercase suffixes (`"nl"`, `"com"`, ...). -/

/-- Convert a string literal to the character-list representation used by the
domain-extraction model. -/
def codes (s : String) : List Char := s.data

/-- `str.lower()` on a character sequence (`Char.toLower` is Python's
lowering on the basic Latin range that hosts use). -/
def toLowerL (s : List Char) : List Char := s.map Char.toLower

/-- `str.split(sep)`: split on every occurrence of the separator, yielding at
least one (possibly empty) part. -/
def splitOnChar (sep : Char) : List Char → List (List Char)
  | [] => [[]]
  | c :: cs =>
    let rest := splitOnChar sep cs
    if c = sep then [] :: rest
    else
      match rest with
      | r :: rs => (c :: r) :: rs
      | [] => [[c]]

/-- `str.partition(sep)[0]`: everything before the first occurrence of the
separator. -/
def beforeChar (sep : Char) (s : List Char) : List Char :=
  s.takeWhile (fun c => c ≠ sep)

/-- `str.split(sep)[-1]`: the part after the last occurrence of the
separator. -/
def afterLastChar (sep : Char) (s : List Char) : List Char :=
  (splitOnChar sep s).getLastD []

/-- A character the scheme part of `^([a-zA-Z0-9+.-]+:)?//` may contain. -/
def isSchemeChar (c : Char) : Bool :=
  c.isAlpha || c.isDigit || c = '+' || c = '-' || c = '.'

/-- tldextract's scheme stripping: remove a leading `//` or `scheme://`. -/
def stripScheme (s : List Char) : List Char :=
  if s.take 2 = ['/', '/'] then s.drop 2
  else
    let pre := s.takeWhile isSchemeChar
    if pre ≠ [] ∧ (s.drop pre.length).take 3 = [':', '/', '/'] then
      s.drop (pre.length + 3)
    else s

/-- The netloc of a url:
`SCHEME_RE.sub("", url).partition("/")[0].split("@")[-1].partition(":")[0]`. -/
def netlocOf (s : List Char) : List Char :=
  beforeChar ':' (afterLastChar '@' (beforeChar '/' (stripScheme s)))

/-- The host's dot-separated labels. -/
def labelsOf (s : List Char) : List (List Char) :=
  splitOnChar '.' (netlocOf s)

/-- Join labels with dots. -/
def joinDots : List (List Char) → List Char
  | [] => []
  | [l] => l
  | l :: ls => l ++ '.' :: joinDots ls

/-- Try suffix candidates longest first: the largest `k ≤ ls.length` such
that the last `k` labels, joined and lowercased, are in the public-suffix
list. -/
def suffixLenAux (psl : List (List Char)) (ls : List (List Char)) :
    Nat → Nat
  | 0 => 0
  | k + 1 =>
    if toLowerL (joinDots (ls.drop (ls.length - (k + 1)))) ∈ psl then k + 1
    else suffixLenAux psl ls k

/-- The matched public suffix's length in labels. -/
def suffixLen (psl : List (List Char)) (ls : List (List Char)) : Nat :=
  suffixLenAux psl ls ls.length

/-- `tldextract.extract(url).domain`: the label just before the matched
public suffix; empty when the whole host is a suffix. -/
def tldDomain (psl : List (List Char)) (s : List Char) : List Char :=
  let ls := labelsOf s
  let k := suffixLen psl ls
  if k = ls.length then []
  else ls.getD (ls.length - k - 1) []

/-- A Python value passed to `get_domain`: a string, or a non-string (such
as the float NaN found in empty url cells). -/
inductive PyVal where
  | str : List Char → PyVal
  | nonstr : PyVal

/-- `utils.get_domain`: extraction inside `try/except TypeError` (a
non-string input raises `TypeError` in the library's scheme regex, caught
and turned into `None`), then `tld.domain.lower()`. -/
def get_domain (psl : List (List Char)) : PyVal → Option (List Char)
  | PyVal.str s => some (toLowerL (tldDomain psl s))
  | PyVal.nonstr => none

/-! # Part 2: Lemmas and claim theorems -/

theorem map_noMatch (col : List Cell) (key : Cell) (t : Cell)
    (h : ∀ c ∈ col, pyEq c key = false) :
    col.map (fun c => if pyEq c key then t else c) = col := by
  induction col with
  | nil => rfl
  | cons x xs ih =>
    simp only [List.map_cons]
    rw [if_neg (by simp [h x (List.mem_cons_self x xs)]),
      ih (fun c hc => h c (List.mem_cons_of_mem _ hc))]

theorem applyItem_eq_map (col : List Cell) (key : Cell) (val : Option Int) :
    applyItem col key val
      = col.map (fun c => if pyEq c key then cellOfTarget val else c) := by
  unfold applyItem
  split
  · rfl
  · rename_i h
    refine (map_noMatch col key _ ?_).symm
    intro c hc
    by_contra hc2
    exact h (List.any_eq_true.mpr ⟨c, hc, by simpa using hc2⟩)

theorem applyItems_eq_map (items : TransEntry) (col : List Cell) :
    applyItems items col = col.map (cellThroughItems items) := by
  induction items generalizing col with
  | nil =>
    simp only [applyItems, List.foldl_nil]
    exact (List.map_id col).symm
  | cons kv rest ih =>
    have h1 : applyItems (kv :: rest) col
        = applyItems rest (applyItem col kv.1 kv.2) := rfl
    rw [h1, ih, applyItem_eq_map, List.map_map]
    rfl

theorem cellThroughItems_stuck (items : TransEntry) (c : Cell)
    (hc : ∀ kv ∈ items, pyEq c kv.1 = false) : cellThroughItems items c = c := by
  induction items with
  | nil => rfl
  | cons kv rest ih =>
    have h1 : cellThroughItems (kv :: rest) c
        = cellThroughItems rest (if pyEq c kv.1 then cellOfTarget kv.2 else c) := rfl
    rw [h1, if_neg (by simp [hc kv (List.mem_cons_self kv rest)])]
    exact ih (fun k hk => hc k (List.mem_cons_of_mem _ hk))

theorem pyEq_cellOfTarget_str (val : Option Int) (s : String) :
    pyEq (cellOfTarget val) (Cell.str s) = false := by
  cases val <;> rfl

theorem cellThroughItems_firstMatch (items : TransEntry) (c : Cell)
    (hkeys : items.all (fun kv => isStrCell kv.1) = true) :
    cellThroughItems items c
      = match items.find? (fun kv => pyEq c kv.1) with
        | some kv => cellOfTarget kv.2
        | none => c := by
  induction items with
  | nil => rfl
  | cons kv rest ih =>
    simp only [List.all_cons, Bool.and_eq_true] at hkeys
    have h1 : cellThroughItems (kv :: rest) c
        = cellThroughItems rest (if pyEq c kv.1 then cellOfTarget kv.2 else c) := rfl
    by_cases hc : pyEq c kv.1 = true
    · have hf : List.find? (fun kv => pyEq c kv.1) (kv :: rest) = some kv := by
        rw [List.find?_cons]
        simp [hc]
      rw [h1, if_pos hc, hf]
      refine cellThroughItems_stuck rest (cellOfTarget kv.2) ?_
      intro k hk
      have := List.all_eq_true.mp hkeys.2 k hk
      cases hks : k.1 with
      | str s => exact pyEq_cellOfTarget_str kv.2 s
      | num n => rw [hks] at this; simp [isStrCell] at this
      | nan => rw [hks] at this; simp [isStrCell] at this
    · have hf : List.find? (fun kv => pyEq c kv.1) (kv :: rest)
          = List.find? (fun kv => pyEq c kv.1) rest := by
        rw [List.find?_cons]
        simp [Bool.eq_false_iff.mpr hc]
      rw [h1, if_neg hc, hf]
      exact ih hkeys.2

theorem mem_of_mem_uniqueAux {α : Type} [DecidableEq α] {seen : List α}
    {l : List α} {x : α} (h : x ∈ uniqueAux seen l) : x ∈ l := by
  induction l generalizing seen with
  | nil => simp [uniqueAux] at h
  | cons c cs ih =>
    simp only [uniqueAux] at h
    split at h
    · exact List.mem_cons_of_mem _ (ih h)
    · rcases List.mem_cons.mp h with h1 | h1
      · exact h1 ▸ List.mem_cons_self _ _
      · exact List.mem_cons_of_mem _ (ih h1)

theorem mem_uniqueAux_of_mem {α : Type} [DecidableEq α] {seen : List α}
    {l : List α} {x : α} (hx : x ∈ l) (hs : x ∉ seen) :
    x ∈ uniqueAux seen l := by
  induction l generalizing seen with
  | nil => simp at hx
  | cons c cs ih =>
    simp only [uniqueAux]
    split
    · rename_i hc
      rcases List.mem_cons.mp hx with h1 | h1
      · exact absurd (h1 ▸ hc) hs
      · exact ih h1 hs
    · rcases List.mem_cons.mp hx with h1 | h1
      · exact h1 ▸ List.mem_cons_self _ _
      · by_cases hxc : x = c
        · exact hxc ▸ List.mem_cons_self _ _
        · exact List.mem_cons_of_mem _ (ih h1 (by simp [hxc, hs]))

theorem mem_uniqueVals_iff {α : Type} [DecidableEq α] (l : List α) (x : α) :
    x ∈ uniqueVals l ↔ x ∈ l :=
  ⟨mem_of_mem_uniqueAux, fun h => mem_uniqueAux_of_mem h (by simp)⟩

/-- C1: reset/cache state machine.  With `R` the effective reset value
(absent when the `reset` parameter is not supplied, else `int(bool)`):
(a) the merged-dataset build step runs iff `R` is present and `R ≤ 1`, or the
dataset cache file does not exist; (b) within that step the dataset is rebuilt
from the two source relational files iff the cache file is absent or `R = 0`,
otherwise the cached dataset is loaded; (c) the statistics pickle cache is
reused iff it exists and `R` is absent, else statistics are recomputed.
Consequently `R` absent gives maximal cache reuse, `R = 0` forces a full
rebuild of dataset and statistics, `R = 1` reuses a present dataset cache
while forcing statistics recomputation, and `R ≥ 2` skips the dataset build
outright when its cache file exists while still forcing statistics
recomputation. -/
theorem reset_cache_state_machine (R : Option Int) (r : Int)
    (dsCache statsCache : Bool) :
    (effectiveReset none = none ∧ effectiveReset (some false) = some 0 ∧
      effectiveReset (some true) = some 1)
    ∧ (datasetBuildStepRuns R dsCache = true ↔
        ((∃ v, R = some v ∧ v ≤ 1) ∨ dsCache = false))
    ∧ (datasetRebuiltFromSource R dsCache = true ↔
        (dsCache = false ∨ R = some 0))
    ∧ (statisticsCacheReused R statsCache = true ↔
        (statsCache = true ∧ R = none))
    ∧ (statisticsCacheReused none statsCache = statsCache)
    ∧ (datasetBuildStepRuns none dsCache = !dsCache)
    ∧ (datasetBuildStepRuns (some 0) dsCache = true
        ∧ datasetRebuiltFromSource (some 0) dsCache = true)
    ∧ (datasetBuildStepRuns (some 1) dsCache = true
        ∧ datasetRebuiltFromSource (some 1) true = false)
    ∧ (statisticsCacheReused (some r) statsCache = false)
    ∧ (2 ≤ r → datasetBuildStepRuns (some r) true = false
        ∧ datasetRebuiltFromSource (some r) true = false) := by
  refine ⟨⟨rfl, rfl, rfl⟩, ?_, ?_, ?_, ?_, ?_, ?_, ?_, ?_, ?_⟩
  · rcases R with _ | v <;> cases dsCache <;>
      simp [datasetBuildStepRuns]
  · rcases R with _ | v <;> cases dsCache <;>
      simp [datasetRebuiltFromSource]
  · rcases R with _ | v <;> cases statsCache <;>
      simp [statisticsCacheReused]
  · cases statsCache <;> simp [statisticsCacheReused]
  · cases dsCache <;> simp [datasetBuildStepRuns]
  · cases dsCache <;> simp [datasetBuildStepRuns, datasetRebuiltFromSource]
  · cases dsCache <;> simp [datasetBuildStepRuns, datasetRebuiltFromSource]
  · cases statsCache <;> simp [statisticsCacheReused]
  · intro h
    constructor
    · simp [datasetBuildStepRuns]
      omega
    · simp [datasetRebuiltFromSource]
      omega

/-- Witness for `reset_cache_state_machine` at `R = some 2`, both caches
present: the dataset build step is skipped and the statistics cache is not
reused. -/
theorem reset_cache_state_machine_witness :
    (2 : Int) ≤ 2 ∧
    (datasetBuildStepRuns (some 2) true = false
      ∧ datasetRebuiltFromSource (some 2) true = false) :=
  ⟨by decide,
   (reset_cache_state_machine (some 2) 2 true true).2.2.2.2.2.2.2.2.2 (by decide)⟩

theorem mem_dropDuplicatedBeIdAux {α : Type} {seen : List Nat}
    {rows : List (MergedRow α)} {r : MergedRow α}
    (h : r ∈ dropDuplicatedBeIdAux seen rows) : r ∈ rows := by
  induction rows generalizing seen with
  | nil => simp [dropDuplicatedBeIdAux] at h
  | cons x xs ih =>
    simp only [dropDuplicatedBeIdAux] at h
    split at h
    · exact List.mem_cons_of_mem _ (ih h)
    · rcases List.mem_cons.mp h with h1 | h1
      · exact h1 ▸ List.mem_cons_self _ _
      · exact List.mem_cons_of_mem _ (ih h1)

theorem beId_dropDuplicatedBeIdAux_nodup {α : Type} (seen : List Nat)
    (rows : List (MergedRow α)) :
    ((dropDuplicatedBeIdAux seen rows).map MergedRow.be_id).Nodup
    ∧ ∀ r ∈ dropDuplicatedBeIdAux seen rows, r.be_id ∉ seen := by
  induction rows generalizing seen with
  | nil => simp [dropDuplicatedBeIdAux]
  | cons x xs ih =>
    simp only [dropDuplicatedBeIdAux]
    split
    · exact (ih seen)
    · rename_i hx
      obtain ⟨hnd, hs⟩ := ih (x.be_id :: seen)
      refine ⟨?_, ?_⟩
      · simp only [List.map_cons, List.nodup_cons]
        refine ⟨?_, hnd⟩
        intro hmem
        obtain ⟨r, hr, hrid⟩ := List.mem_map.mp hmem
        exact (hs r hr) (by simp [hrid])
      · intro r hr
        rcases List.mem_cons.mp hr with h1 | h1
        · exact h1 ▸ hx
        · intro hin
          exact (hs r h1) (List.mem_cons_of_mem _ hin)

theorem filter_dropDuplicatedBeIdAux {α : Type} (seen : List Nat)
    (rows : List (MergedRow α)) (b : Nat) (hb : b ∉ seen) :
    (dropDuplicatedBeIdAux seen rows).filter (fun r => r.be_id = b)
      = (rows.filter (fun r => r.be_id = b)).take 1 := by
  induction rows generalizing seen with
  | nil => simp [dropDuplicatedBeIdAux]
  | cons x xs ih =>
    simp only [dropDuplicatedBeIdAux]
    by_cases hxb : x.be_id = b
    · subst hxb
      rw [if_neg hb]
      have hxs : (dropDuplicatedBeIdAux (x.be_id :: seen) xs).filter
          (fun r => r.be_id = x.be_id) = [] := by
        rw [List.filter_eq_nil_iff]
        intro r hr
        have := (beId_dropDuplicatedBeIdAux_nodup (x.be_id :: seen) xs).2 r hr
        simp only [decide_eq_true_eq]
        intro hc
        exact this (by simp [hc])
      simp [hxs]
    · have hfx : (x :: xs).filter (fun r => r.be_id = b)
          = xs.filter (fun r => r.be_id = b) := by
        simp [List.filter_cons, hxb]
      split
      · rw [ih seen hb, hfx]
      · rw [List.filter_cons, if_neg (by simpa using hxb), ih _ (by simp [hb, Ne.symm]; exact fun h => hxb h.symm), hfx]

theorem mem_innerJoin_iff {α : Type} [DecidableEq α] (records : List (RegRow α))
    (tables : List (ScanRow α)) (m : MergedRow α) :
    m ∈ innerJoin records tables ↔
      ∃ r ∈ records, ∃ s ∈ tables, r.domain = s.domain
        ∧ m = ⟨r.be_id, r.domain, r.weight, s.payload⟩ := by
  simp only [innerJoin, List.mem_flatMap, List.mem_map, List.mem_filter,
    decide_eq_true_eq]
  constructor
  · rintro ⟨r, hr, s, ⟨hs, hdom⟩, hm⟩
    exact ⟨r, hr, s, hs, hdom.symm, hm.symm⟩
  · rintro ⟨r, hr, s, hs, hdom, hm⟩
    exact ⟨r, hr, s, ⟨hs, hdom.symm⟩, hm.symm⟩

/-- C2: merged-dataset invariant.  The dataset built by `read_data` contains
no two rows with the same business-entity identifier and first occurrence
wins (for each `be_id` the surviving row is the first weight-carrying joined
row with that identifier), every row has a non-missing value in the
configured weight column, and every row arises from a register row and a
scan-result row agreeing on the extracted domain-name key, so rows present
on only one side are dropped. -/
theorem merged_dataset_invariant {α : Type} [DecidableEq α]
    (records : List (RegRow α)) (tables : List (ScanRow α)) :
    ((buildMergedDataset records tables).map MergedRow.be_id).Nodup
    ∧ (∀ r ∈ buildMergedDataset records tables, r.weight.isSome = true)
    ∧ (∀ b : Nat, (buildMergedDataset records tables).filter (fun r => r.be_id = b)
        = ((dropMissingWeight (innerJoin records tables)).filter
            (fun r => r.be_id = b)).take 1)
    ∧ (∀ m ∈ buildMergedDataset records tables,
        ∃ r ∈ records, ∃ s ∈ tables, r.domain = s.domain
          ∧ m = ⟨r.be_id, r.domain, r.weight, s.payload⟩) := by
  refine ⟨?_, ?_, ?_, ?_⟩
  · exact (beId_dropDuplicatedBeIdAux_nodup [] _).1
  · intro r hr
    have h1 : r ∈ dropMissingWeight (innerJoin records tables) :=
      mem_dropDuplicatedBeIdAux hr
    simpa using (List.mem_filter.mp h1).2
  · intro b
    exact filter_dropDuplicatedBeIdAux [] _ b (by simp)
  · intro m hm
    have h1 : m ∈ dropMissingWeight (innerJoin records tables) :=
      mem_dropDuplicatedBeIdAux hm
    have h2 : m ∈ innerJoin records tables := List.mem_of_mem_filter h1
    exact (mem_innerJoin_iff records tables m).mp h2

/-- Witness for `merged_dataset_invariant`: three register rows (weights
`1`, `2`, missing) and two scan rows; the missing-weight business and the
unmatched business are dropped, one row remains. -/
theorem merged_dataset_invariant_witness :
    buildMergedDataset
      ([⟨1, "example", some 1⟩, ⟨2, "other", some 2⟩,
        ⟨3, "nomatch", none⟩] : List (RegRow String))
      [⟨"example", 10⟩, ⟨"nomatch", 30⟩]
      = [⟨1, "example", some 1, 10⟩]
    ∧ (∀ r ∈ buildMergedDataset
        ([⟨1, "example", some 1⟩, ⟨2, "other", some 2⟩,
          ⟨3, "nomatch", none⟩] : List (RegRow String))
        [⟨"example", 10⟩, ⟨"nomatch", 30⟩], r.weight.isSome = true) := by
  constructor
  · decide
  · intro r hr
    exact (merged_dataset_invariant
      ([⟨1, "example", some 1⟩, ⟨2, "other", some 2⟩,
        ⟨3, "nomatch", none⟩] : List (RegRow String))
      [⟨"example", 10⟩, ⟨"nomatch", 30⟩]).2.1 r hr

/-- C3: the orchestrator's constructor does not declare a `gk_data`
parameter, yet the command-line driver passes a `gk_data` keyword argument
when constructing it, so the construction call supplies an argument the
constructor's parameter set does not accept (an unexpected-keyword
`TypeError` rather than a completed construction). -/
theorem driver_passes_unaccepted_gk_data :
    "gk_data" ∈ driverConstructorKwargs
    ∧ "gk_data" ∉ domainAnalyserParams
    ∧ callAccepted domainAnalyserParams driverConstructorKwargs = false := by
  decide

theorem seriesMapCell_covered (trans : List (String × Int)) (k : String)
    (v : Int) (hnd : (trans.map Prod.fst).Nodup) (hmem : (k, v) ∈ trans) :
    seriesMapCell trans (Cell.str k) = Cell.num v := by
  induction trans with
  | nil => simp at hmem
  | cons kv rest ih =>
    simp only [List.map_cons, List.nodup_cons] at hnd
    rcases List.mem_cons.mp hmem with h | h
    · have hp : pyEq (Cell.str k) (Cell.str kv.1) = true := by
        simp [pyEq, (congrArg Prod.fst h.symm : kv.1 = k)]
      unfold seriesMapCell
      rw [List.find?_cons]
      simp only [hp]
      rw [← h]
    · have hk : k ≠ kv.1 := by
        intro hkk
        exact hnd.1 (hkk ▸ (List.mem_map.mpr ⟨(k, v), h, rfl⟩))
      have hp : pyEq (Cell.str k) (Cell.str kv.1) = false := by
        simp [pyEq]
        exact hk
      unfold seriesMapCell
      rw [List.find?_cons]
      simp only [hp]
      exact ih hnd.2 h

theorem seriesMapCell_uncovered (trans : List (String × Int)) (c : Cell)
    (h : ∀ kv ∈ trans, pyEq c (Cell.str kv.1) = false) :
    seriesMapCell trans c = Cell.nan := by
  unfold seriesMapCell
  rw [List.find?_eq_none.mpr (fun kv hkv => by simp [h kv hkv])]

/-- C4 counterexample: translation `{A: 1}` on a column with observed values
`A` and `B` maps `A` to `1` but sends the uncovered `B` to NaN — pandas
`Series.map(dict)` sends values absent from the dict to NaN — contradicting
the claim that `B` stays the literal string `"B"`. -/
theorem variable_translation_counterexample :
    translationApplies [("A", 1)] [Cell.str "A", Cell.str "B"] = true
    ∧ applyVarTranslation [("A", 1)] [Cell.str "A", Cell.str "B"]
        = [Cell.num 1, Cell.nan]
    ∧ Cell.nan ≠ Cell.str "B" := by
  refine ⟨by decide, by decide, by decide⟩

/-- C4 as amended: during dataset construction, when a variable's
value-translation expression is applied to a column (because some translation
source key occurs among the column's observed values), every occurrence of a
covered source value is replaced by its mapped target, and every occurrence
of a value not covered by the translation is replaced by the missing-value
sentinel NaN (the behaviour of pandas `Series.map` with a dict), not left as
its original literal value; when no source key occurs among the observed
values the column is left unchanged. -/
theorem variable_translation_amended (trans : List (String × Int))
    (col : List Cell) (hnd : (trans.map Prod.fst).Nodup) :
    (translationApplies trans col = true →
      applyVarTranslation trans col = col.map (seriesMapCell trans)
      ∧ (∀ k v, (k, v) ∈ trans →
          seriesMapCell trans (Cell.str k) = Cell.num v)
      ∧ (∀ c : Cell, (∀ kv ∈ trans, pyEq c (Cell.str kv.1) = false) →
          seriesMapCell trans c = Cell.nan))
    ∧ (translationApplies trans col = false →
        applyVarTranslation trans col = col) := by
  constructor
  · intro happ
    refine ⟨?_, ?_, ?_⟩
    · unfold applyVarTranslation
      rw [if_pos happ]
    · intro k v hkv
      exact seriesMapCell_covered trans k v hnd hkv
    · intro c hc
      exact seriesMapCell_uncovered trans c hc
  · intro happ
    unfold applyVarTranslation
    rw [happ]
    simp

/-- Witness for `variable_translation_amended` with translation `{A: 1}` on a
column `[A, B]`. -/
theorem variable_translation_amended_witness :
    applyVarTranslation [("A", 1)] [Cell.str "A", Cell.str "B"]
      = [Cell.str "A", Cell.str "B"].map (seriesMapCell [("A", 1)])
    ∧ seriesMapCell [("A", 1)] (Cell.str "A") = Cell.num 1 := by
  have h := (variable_translation_amended [("A", 1)]
    [Cell.str "A", Cell.str "B"] (by decide)).1 (by decide)
  exact ⟨h.1, h.2.1 "A" 1 (by decide)⟩

theorem fillBoolColumn_small (nm : String) (entry : TransEntry)
    (col : List Cell) (hlen : (uniqueVals col).length ≤ 3) :
    fillBoolColumn none [(nm, entry)] col
      = ((fillBoolEntryStep (uniqueVals col) col entry).1,
         [(nm, (fillBoolEntryStep (uniqueVals col) col entry).2)]) := by
  simp only [fillBoolColumn, fillBoolEntriesLoop]
  rw [if_pos hlen, if_pos trivial]

theorem gate_true_of_uncovered_nil (entry : TransEntry) (uniq : List Cell)
    (huncov : uniq.filter
        (fun u => !((entry.map Prod.fst).any (fun k => pyEq u k))) = [])
    (c : Cell) (hc : c ∈ uniq) :
    ∃ kv ∈ entry, pyEq c kv.1 = true := by
  have h1 := List.filter_eq_nil_iff.mp huncov c hc
  simp only [Bool.not_eq_true', Bool.not_eq_false] at h1
  obtain ⟨k, hk, hpk⟩ := List.any_eq_true.mp h1
  obtain ⟨kv, hkv, hkv1⟩ := List.mem_map.mp hk
  exact ⟨kv, hkv, hkv1 ▸ hpk⟩

/-- C8 as amended: for every column not typed `dict` in the variable
metadata, if the column has at most 3 distinct observed values and some
translation entry's key set intersects those values, then every observed
value covered by that entry is replaced by its mapped numeric target as a
float and — provided at most one observed value is uncovered — the uncovered
value is mapped to floating-point NaN (the helper inserts only one uncovered
value, `list(nan_val)[0]`, into the entry; with two or more uncovered values
only one of them, chosen by Python's unspecified set order, becomes NaN); a
column with 4 or more distinct observed values is left untouched even if a
translation entry matches a subset of its values. -/
theorem fill_booleans_amended (nm : String) (entry : TransEntry)
    (col : List Cell)
    (hstr : col.all isStrCell = true)
    (hkeys : entry.all (fun kv => isStrCell kv.1) = true)
    (hlen : (uniqueVals col).length ≤ 3)
    (hinter : ((uniqueVals col).filter
        (fun u => (entry.map Prod.fst).any (fun k => pyEq u k))).isEmpty
        = false)
    (huncov : ((uniqueVals col).filter
        (fun u => !((entry.map Prod.fst).any (fun k => pyEq u k)))).length
        ≤ 1) :
    (fillBoolColumn none [(nm, entry)] col).1 = col.map (translatedCell entry)
    ∧ (∀ col2 : List Cell, 4 ≤ (uniqueVals col2).length →
        fillBoolColumn none [(nm, entry)] col2 = (col2, [(nm, entry)])) := by
  constructor
  · rw [fillBoolColumn_small nm entry col hlen]
    simp only [fillBoolEntryStep, hinter]
    rw [if_neg (by simp [hinter])]
    rcases hU : (uniqueVals col).filter
        (fun u => !((entry.map Prod.fst).any (fun k => pyEq u k))) with _ | ⟨u, us⟩
    · -- every observed value is covered by the entry
      simp only [applyItems_eq_map]
      refine List.map_congr_left ?_
      intro c hc
      rw [cellThroughItems_firstMatch entry c hkeys]
      obtain ⟨kv, hkv, hpkv⟩ := gate_true_of_uncovered_nil entry
        (uniqueVals col) hU c ((mem_uniqueVals_iff col c).mpr hc)
      unfold translatedCell
      rcases hfind : entry.find? (fun kv => pyEq c kv.1) with _ | kv2
      · exact absurd (hpkv) (by simpa using List.find?_eq_none.mp hfind kv hkv)
      · rw [hfind]
    · -- exactly one uncovered observed value `u`; it is inserted with NaN
      have hus : us = [] := by
        have := hU ▸ huncov
        simpa using this
      subst hus
      have hu_mem : u ∈ uniqueVals col := by
        have : u ∈ (uniqueVals col).filter
            (fun x => !((entry.map Prod.fst).any (fun k => pyEq x k))) := by
          rw [hU]; exact List.mem_cons_self _ _
        exact List.mem_of_mem_filter this
      have hu_gate : ((entry.map Prod.fst).any (fun k => pyEq u k)) = false := by
        have : u ∈ (uniqueVals col).filter
            (fun x => !((entry.map Prod.fst).any (fun k => pyEq x k))) := by
          rw [hU]; exact List.mem_cons_self _ _
        have := List.of_mem_filter this
        simpa using this
      have hu_str : isStrCell u = true :=
        List.all_eq_true.mp hstr u ((mem_uniqueVals_iff col u).mp hu_mem)
      have hkeys2 : (entry ++ [(u, (none : Option Int))]).all
          (fun kv => isStrCell kv.1) = true := by
        rw [List.all_append, hkeys]
        simp [hu_str]
      simp only [applyItems_eq_map]
      refine List.map_congr_left ?_
      intro c hc
      rw [cellThroughItems_firstMatch _ c hkeys2]
      unfold translatedCell
      rw [List.find?_append]
      rcases hfind : entry.find? (fun kv => pyEq c kv.1) with _ | kv2
      · -- `c` is uncovered, hence `c = u` and the appended item catches it
        have hc_gate : ((entry.map Prod.fst).any (fun k => pyEq c k)) = false := by
          rw [List.any_eq_false]
          intro k hk
          obtain ⟨kv, hkv, hkv1⟩ := List.mem_map.mp hk
          rw [← hkv1]
          simpa using List.find?_eq_none.mp hfind kv hkv
        have hc_unc : c ∈ (uniqueVals col).filter
            (fun x => !((entry.map Prod.fst).any (fun k => pyEq x k))) := by
          rw [List.mem_filter]
          exact ⟨(mem_uniqueVals_iff col c).mpr hc, by simp [hc_gate]⟩
        have hcu : c = u := by
          rw [hU] at hc_unc
          simpa using hc_unc
        subst hcu
        have hself : pyEq c c = true := by
          rcases c with s | n | _
          · simp [pyEq]
          · simp [isStrCell] at hu_str
          · simp [isStrCell] at hu_str
        have hfu : List.find? (fun kv => pyEq c kv.1)
            [(c, (none : Option Int))] = some (c, none) := by
          rw [List.find?_cons]
          simp [hself]
        rw [hfind, hfu]
        simp [cellOfTarget]
      · rw [hfind]
        simp
  · intro col2 h4
    have h3 : ¬ (uniqueVals col2).length ≤ 3 := by omega
    simp only [fillBoolColumn, fillBoolEntriesLoop]
    rw [if_neg h3, if_pos trivial]

/-- C8 counterexample: column `[A, X, Y]` (3 distinct observed string
values), translation entry `{A: 1}`.  The key set intersects the observed
values, `A` is mapped to `1.0`, but of the two uncovered values only one is
inserted into the entry with NaN (`trans_prop[list(nan_val)[0]] = np.nan`
inserts a single element); the other — here `Y`; Python's set order may pick
either one, but never both — survives as its original literal string, where
the claim requires every uncovered observed value to become NaN. -/
theorem fill_booleans_counterexample :
    (fillBoolColumn none [("t", [(Cell.str "A", some 1)])]
        [Cell.str "A", Cell.str "X", Cell.str "Y"]).1
      = [Cell.num 1, Cell.nan, Cell.str "Y"]
    ∧ Cell.str "Y" ≠ Cell.nan
    ∧ (uniqueVals [Cell.str "A", Cell.str "X", Cell.str "Y"]).contains
        (Cell.str "Y") = true
    ∧ ([(Cell.str "A", some 1)] : TransEntry).all
        (fun kv => !(pyEq (Cell.str "Y") kv.1)) = true := by
  refine ⟨by decide, by decide, by decide, by decide⟩

/-- Witness for `fill_booleans_amended`: column `[Ja, Nee]` with entry
`{Ja: 1, Nee: 0}` (everything covered) becomes `[1.0, 0.0]`; a column with 4
distinct observed values is untouched. -/
theorem fill_booleans_amended_witness :
    (fillBoolColumn none [("t", [(Cell.str "Ja", some 1),
        (Cell.str "Nee", some 0)])] [Cell.str "Ja", Cell.str "Nee"]).1
      = [Cell.str "Ja", Cell.str "Nee"].map
          (translatedCell [(Cell.str "Ja", some 1), (Cell.str "Nee", some 0)])
    ∧ fillBoolColumn none [("t", [(Cell.str "Ja", some 1),
        (Cell.str "Nee", some 0)])]
        [Cell.str "a", Cell.str "b", Cell.str "c", Cell.str "d"]
      = ([Cell.str "a", Cell.str "b", Cell.str "c", Cell.str "d"],
         [("t", [(Cell.str "Ja", some 1), (Cell.str "Nee", some 0)])]) := by
  have h := fill_booleans_amended "t"
    [(Cell.str "Ja", some 1), (Cell.str "Nee", some 0)]
    [Cell.str "Ja", Cell.str "Nee"]
    (by decide) (by decide) (by decide) (by decide) (by decide)
  exact ⟨h.1, h.2 [Cell.str "a", Cell.str "b", Cell.str "c", Cell.str "d"]
    (by decide)⟩

theorem uniqueAux_replicate_of_mem {α : Type} [DecidableEq α] (seen : List α)
    (c : α) (hc : c ∈ seen) (k : Nat) :
    uniqueAux seen (List.replicate k c) = [] := by
  induction k with
  | zero => rfl
  | succ n ih =>
    rw [List.replicate_succ]
    simp only [uniqueAux]
    rw [if_pos hc]
    exact ih

theorem uniqueVals_replicate {α : Type} [DecidableEq α] (c : α) (m : Nat) :
    uniqueVals (List.replicate m c) = if m = 0 then [] else [c] := by
  cases m with
  | zero => rfl
  | succ n =>
    rw [if_neg (Nat.succ_ne_zero n), List.replicate_succ]
    simp only [uniqueVals, uniqueAux]
    rw [if_neg (by simp)]
    rw [uniqueAux_replicate_of_mem [c] c (List.mem_singleton.mpr rfl) n]

/-- C10: `fill_booleans` mutates its `translations` argument.  When a column
matches a translation entry and has an uncovered observed value `v`, `v` is
inserted into the entry itself with a NaN target, the insertion is returned
to the caller in the shared translations object, and a later column is
processed against the grown entry: its `v` cells now intersect the entry's
key set and are mapped to NaN, whereas under the original entry (second
conjunct) the same later column would have been left untouched. -/
theorem pyEq_str_str (s u : String) :
    pyEq (Cell.str s) (Cell.str u) = (s == u) := rfl

theorem pyEq_num_str (x : Int) (s : String) :
    pyEq (Cell.num x) (Cell.str s) = false := rfl

theorem fill_booleans_mutates_translations (nm a v : String) (t : Int)
    (m : Nat) (hav : a ≠ v) :
    fill_booleans [] [("col1", [Cell.str a, Cell.str v]),
        ("col2", List.replicate m (Cell.str v))]
      [(nm, [(Cell.str a, some t)])]
    = ([("col1", [Cell.num t, Cell.nan]),
        ("col2", List.replicate m Cell.nan)],
       [(nm, [(Cell.str a, some t), (Cell.str v, none)])])
    ∧ fill_booleans [] [("col2", List.replicate m (Cell.str v))]
        [(nm, [(Cell.str a, some t)])]
      = ([("col2", List.replicate m (Cell.str v))],
         [(nm, [(Cell.str a, some t)])]) := by
  have hva : v ≠ a := fun h => hav h.symm
  have hpaa : pyEq (Cell.str a) (Cell.str a) = true := by
    simp [pyEq_str_str]
  have hpvv : pyEq (Cell.str v) (Cell.str v) = true := by
    simp [pyEq_str_str]
  have hpva : pyEq (Cell.str v) (Cell.str a) = false := by
    simp [pyEq_str_str]
    exact hva
  have hpav : pyEq (Cell.str a) (Cell.str v) = false := by
    simp [pyEq_str_str]
    exact hav
  have hu1 : uniqueVals [Cell.str a, Cell.str v]
      = [Cell.str a, Cell.str v] := by
    simp [uniqueVals, uniqueAux, hva]
  have hcol1 : fillBoolColumn none [(nm, [(Cell.str a, some t)])]
      [Cell.str a, Cell.str v]
      = ([Cell.num t, Cell.nan],
         [(nm, [(Cell.str a, some t), (Cell.str v, none)])]) := by
    have hlen1 : (uniqueVals [Cell.str a, Cell.str v]).length ≤ 3 := by
      rw [hu1]
      simp
    rw [fillBoolColumn_small nm _ _ hlen1, hu1]
    have hstep : fillBoolEntryStep [Cell.str a, Cell.str v]
        [Cell.str a, Cell.str v] [(Cell.str a, some t)]
        = ([Cell.num t, Cell.nan],
           [(Cell.str a, some t), (Cell.str v, none)]) := by
      simp [fillBoolEntryStep, applyItems, applyItem, hpaa, hpva, hpvv,
        hpav, pyEq_num_str, cellOfTarget]
    rw [hstep]
  have hcol2 : fillBoolColumn none
      [(nm, [(Cell.str a, some t), (Cell.str v, none)])]
      (List.replicate m (Cell.str v))
      = (List.replicate m Cell.nan,
         [(nm, [(Cell.str a, some t), (Cell.str v, none)])]) := by
    have hlen2 : (uniqueVals (List.replicate m (Cell.str v))).length ≤ 3 := by
      rw [uniqueVals_replicate]
      split <;> simp
    rw [fillBoolColumn_small nm _ _ hlen2, uniqueVals_replicate]
    cases m with
    | zero =>
      simp [fillBoolEntryStep]
    | succ n =>
      rw [if_neg (Nat.succ_ne_zero n)]
      have hstep : fillBoolEntryStep [Cell.str v]
          (List.replicate (n + 1) (Cell.str v))
          [(Cell.str a, some t), (Cell.str v, none)]
          = (List.replicate (n + 1) Cell.nan,
             [(Cell.str a, some t), (Cell.str v, none)]) := by
        simp [fillBoolEntryStep, applyItems, applyItem, hpva, hpvv,
          hpav, pyEq_num_str, cellOfTarget]
      rw [hstep]
  have hcol2orig : fillBoolColumn none [(nm, [(Cell.str a, some t)])]
      (List.replicate m (Cell.str v))
      = (List.replicate m (Cell.str v), [(nm, [(Cell.str a, some t)])]) := by
    have hlen2 : (uniqueVals (List.replicate m (Cell.str v))).length ≤ 3 := by
      rw [uniqueVals_replicate]
      split <;> simp
    rw [fillBoolColumn_small nm _ _ hlen2, uniqueVals_replicate]
    cases m with
    | zero =>
      simp [fillBoolEntryStep]
    | succ n =>
      rw [if_neg (Nat.succ_ne_zero n)]
      have hstep : fillBoolEntryStep [Cell.str v]
          (List.replicate (n + 1) (Cell.str v)) [(Cell.str a, some t)]
          = (List.replicate (n + 1) (Cell.str v), [(Cell.str a, some t)]) := by
        simp [fillBoolEntryStep, hpva]
      rw [hstep]
  constructor
  · simp [fill_booleans, alistLookup, hcol1, hcol2]
  · simp [fill_booleans, alistLookup, hcol2orig]

/-- Witness for `fill_booleans_mutates_translations` at `a = "Ja"`,
`v = "Onbekend"`, target `1`, two cells in the later column. -/
theorem fill_booleans_mutates_translations_witness :
    fill_booleans [] [("col1", [Cell.str "Ja", Cell.str "Onbekend"]),
        ("col2", List.replicate 2 (Cell.str "Onbekend"))]
      [("tset", [(Cell.str "Ja", some 1)])]
    = ([("col1", [Cell.num 1, Cell.nan]),
        ("col2", List.replicate 2 Cell.nan)],
       [("tset", [(Cell.str "Ja", some 1), (Cell.str "Onbekend", none)])]) :=
  (fill_booleans_mutates_translations "tset" "Ja" "Onbekend" 1 2
    (by decide)).1

theorem mem_zip_map_self {α β : Type} (l : List α) (f : α → β) (p : α × β)
    (hp : p ∈ l.zip (l.map f)) : p.2 = f p.1 := by
  induction l with
  | nil => simp at hp
  | cons x xs ih =>
    simp only [List.map_cons, List.zip_cons_cons] at hp
    rcases List.mem_cons.mp hp with h | h
    · rw [h]
    · exact ih h

/-- C5: the option-mask operation exists in two otherwise-identical forms —
one taking an explicit question type (called by `make_plots`; modelled from
the spec as `get_option_mask_explicit`), one deriving it internally from the
canonical-name lookup in the variable-metadata table (`utils.get_option_mask`)
— and both produce the same semantics: for a `dict`-typed question the mask
selects exactly the rows whose third index level equals one of `"Passed"`,
`"Yes"`, `"Good"`, and for any other question type it selects every row. -/
theorem option_mask_two_forms (question_df : List QRow)
    (varsMeta : List (String × String)) (question_type : String)
    (m : List Bool) (v : String) (rest : List String)
    (hm : get_option_mask question_df varsMeta = some m)
    (hv : question_df.map QRow.varName = v :: rest)
    (ht : alistLookup varsMeta (stripVariantTail v) = some question_type) :
    m = get_option_mask_explicit question_df question_type
    ∧ (question_type = "dict" →
        ∀ p ∈ question_df.zip m,
          p.2 = true ↔
            (p.1.opt = "Passed" ∨ p.1.opt = "Yes" ∨ p.1.opt = "Good"))
    ∧ (question_type ≠ "dict" →
        m = List.replicate question_df.length true) := by
  have hm2 : m = optionMaskFor question_type question_df := by
    unfold get_option_mask at hm
    rw [hv] at hm
    simp only [ht] at hm
    exact (Option.some_inj.mp hm).symm
  have hsame : optionMaskFor question_type question_df
      = get_option_mask_explicit question_df question_type := by
    unfold optionMaskFor get_option_mask_explicit
    by_cases hd : question_type = "dict"
    · rw [if_pos hd]
      refine List.map_congr_left ?_
      intro r _
      rw [if_pos hd]
      by_cases hp : r.opt = "Passed" <;> by_cases hy : r.opt = "Yes" <;>
        by_cases hg : r.opt = "Good" <;> simp [hp, hy, hg]
    · rw [if_neg hd]
      refine List.map_congr_left ?_
      intro r _
      rw [if_neg hd]
  refine ⟨hm2.trans hsame, ?_, ?_⟩
  · intro hd p hp
    rw [hm2, optionMaskFor, if_pos hd] at hp
    have h2 := mem_zip_map_self question_df _ p hp
    rw [h2]
    simp [or_assoc]
  · intro hd
    rw [hm2, optionMaskFor, if_neg hd]
    induction question_df with
    | nil => rfl
    | cons x xs ih => simp [List.replicate_succ, ih]

/-- Witness for `option_mask_two_forms`: a `dict`-typed question whose four
option rows are `Passed`, `Failed`, `Yes`, `No` — exactly `Passed` and `Yes`
are selected, by both forms. -/
theorem option_mask_two_forms_witness :
    get_option_mask
      [⟨"m", "q", "Passed", "q_1.0"⟩, ⟨"m", "q", "Failed", "q_1.0"⟩,
       ⟨"m", "q", "Yes", "q_1.0"⟩, ⟨"m", "q", "No", "q_1.0"⟩]
      [("q", "dict")]
      = some [true, false, true, false]
    ∧ [true, false, true, false]
      = get_option_mask_explicit
          [⟨"m", "q", "Passed", "q_1.0"⟩, ⟨"m", "q", "Failed", "q_1.0"⟩,
           ⟨"m", "q", "Yes", "q_1.0"⟩, ⟨"m", "q", "No", "q_1.0"⟩] "dict" := by
  refine ⟨by decide, ?_⟩
  exact (option_mask_two_forms
    [⟨"m", "q", "Passed", "q_1.0"⟩, ⟨"m", "q", "Failed", "q_1.0"⟩,
     ⟨"m", "q", "Yes", "q_1.0"⟩, ⟨"m", "q", "No", "q_1.0"⟩]
    [("q", "dict")] "dict" [true, false, true, false] "q_1.0"
    ["q_1.0", "q_1.0", "q_1.0"]
    (by decide) (by decide) (by decide)).1

theorem sheetNamesCodeAux_no_collision (names : List String)
    (sheets : List PyObj) (cnt : Nat)
    (h : ∀ x ∈ sheets, x = PyObj.listref) :
    sheetNamesCodeAux names sheets cnt
      = names.map (fun n => if n.length > 32 then strTake n 32 else n) := by
  induction names generalizing sheets cnt with
  | nil => rfl
  | cons n rest ih =>
    have hc : sheets.contains
        (PyObj.str (if n.length > 32 then strTake n 32 else n)) = false := by
      rw [Bool.eq_false_iff]
      intro hcon
      obtain ⟨b, hb, hbeq⟩ := List.contains_iff_exists_mem_beq.mp hcon
      rw [h b hb] at hbeq
      exact PyObj.noConfusion (eq_of_beq hbeq)
    have h2 : ∀ x ∈ sheets ++ [PyObj.listref], x = PyObj.listref := by
      intro x hx
      rcases List.mem_append.mp hx with h1 | h1
      · exact h x h1
      · simpa using h1
    simp only [sheetNamesCodeAux, List.map_cons]
    rw [if_neg (by simpa using hc), ih (sheets ++ [PyObj.listref]) (cnt + 1) h2]

/-- C6 (code bug): the sheet-name collision rule never fires in the code.
`write_statistics` was meant to record each used sheet name, but
`sheets.append(sheets)` appends the accumulator to itself, so the membership
test compares a string against list objects and is always false: every sheet
name is just the 32-character truncation (first conjunct), and two breakdown
names sharing their first 32 characters produce the *same* sheet name, where
the claimed rule (second conjunct, `sheetNamesSpec`) gives the second one
the 30-character prefix plus the counter suffix `"01"`. -/
theorem sheet_name_collision_code_bug :
    (∀ names : List String, sheetNamesCode names
      = names.map (fun n => if n.length > 32 then strTake n 32 else n))
    ∧ sheetNamesCode
        [String.mk (List.replicate 32 'A' ++ List.replicate 8 'X'),
         String.mk (List.replicate 32 'A' ++ List.replicate 8 'Y')]
      = [String.mk (List.replicate 32 'A'), String.mk (List.replicate 32 'A')]
    ∧ sheetNamesSpec
        [String.mk (List.replicate 32 'A' ++ List.replicate 8 'X'),
         String.mk (List.replicate 32 'A' ++ List.replicate 8 'Y')]
      = [String.mk (List.replicate 32 'A'),
         String.mk (List.replicate 30 'A') ++ "01"]
    ∧ String.mk (List.replicate 32 'A')
        ≠ String.mk (List.replicate 30 'A') ++ "01" := by
  refine ⟨fun names => sheetNamesCodeAux_no_collision names [] 0 (by simp),
    by decide, by decide, by decide⟩

theorem find?_filter_of_imp {α : Type} (l : List α) (p q : α → Bool)
    (h : ∀ x ∈ l, q x = true → p x = true) :
    (l.filter p).find? q = l.find? q := by
  induction l with
  | nil => rfl
  | cons x xs ih =>
    have hxs : ∀ y ∈ xs, q y = true → p y = true :=
      fun y hy => h y (List.mem_cons_of_mem _ hy)
    by_cases hq : q x = true
    · have hp : p x = true := h x (List.mem_cons_self x xs) hq
      rw [List.filter_cons_of_pos hp, List.find?_cons_of_pos _ hq,
        List.find?_cons_of_pos _ hq]
    · by_cases hp : p x = true
      · rw [List.filter_cons_of_pos hp, List.find?_cons_of_neg _ hq,
          List.find?_cons_of_neg _ hq, ih hxs]
      · rw [List.filter_cons_of_neg (by simp [hp]),
          List.find?_cons_of_neg _ hq, ih hxs]

theorem uniqueAux_nodup {α : Type} [DecidableEq α] (seen : List α)
    (l : List α) :
    (uniqueAux seen l).Nodup ∧ ∀ x ∈ uniqueAux seen l, x ∉ seen := by
  induction l generalizing seen with
  | nil => simp [uniqueAux]
  | cons c cs ih =>
    simp only [uniqueAux]
    split
    · exact ih seen
    · rename_i hc
      obtain ⟨hnd, hs⟩ := ih (c :: seen)
      refine ⟨List.nodup_cons.mpr
        ⟨fun hmem => (hs c hmem) (List.mem_cons_self _ _), hnd⟩, ?_⟩
      intro x hx
      rcases List.mem_cons.mp hx with h1 | h1
      · exact h1 ▸ hc
      · exact fun hin => (hs x h1) (List.mem_cons_of_mem _ hin)

theorem write_data_fold_inv (cols : List String) (gs S : List String)
    (hdisj : ∀ g ∈ gs, g ∉ S) (hnd : gs.Nodup) :
    gs.foldl (fun acc g => if 1 < countLower cols g then dropFirstOfGroup acc g
      else acc) (cols.filter (keepAfterGroups cols S))
    = cols.filter (keepAfterGroups cols (S ++ gs)) := by
  induction gs generalizing S with
  | nil => simp
  | cons g gs ih =>
    rw [List.foldl_cons]
    have hgS : g ∉ S := hdisj g (List.mem_cons_self _ _)
    have hdisj' : ∀ g' ∈ gs, g' ∉ S ++ [g] := by
      intro g' hg' hin
      rcases List.mem_append.mp hin with h1 | h1
      · exact hdisj g' (List.mem_cons_of_mem _ hg') h1
      · have hgg : g' = g := by simpa using h1
        exact (List.nodup_cons.mp hnd).1 (hgg ▸ hg')
    have hnd' : gs.Nodup := (List.nodup_cons.mp hnd).2
    have hassoc : S ++ g :: gs = (S ++ [g]) ++ gs := by simp
    by_cases hdup : 1 < countLower cols g
    · rw [if_pos hdup]
      have himp : ∀ x ∈ cols, (lowerStr x == g) = true →
          keepAfterGroups cols S x = true := by
        intro x _ hxg
        have hxg2 : lowerStr x = g := by simpa using hxg
        unfold keepAfterGroups
        rw [hxg2]
        simp [hgS]
      have hex : ∃ c₀, cols.find? (fun c => lowerStr c == g) = some c₀ := by
        have hlen : 0 < (cols.filter (fun c => lowerStr c == g)).length := by
          have h2 := hdup
          unfold countLower at h2
          omega
        obtain ⟨c, hc⟩ := List.exists_mem_of_ne_nil _
          (List.length_pos.mp hlen)
        have hcm := List.mem_filter.mp hc
        exact Option.isSome_iff_exists.mp
          (List.find?_isSome.mpr ⟨c, hcm.1, hcm.2⟩)
      obtain ⟨c₀, hc₀⟩ := hex
      have hc₀g : lowerStr c₀ = g := by simpa using List.find?_some hc₀
      have hdrop : dropFirstOfGroup (cols.filter (keepAfterGroups cols S)) g
          = (cols.filter (keepAfterGroups cols S)).filter
              (fun x => x ≠ c₀) := by
        unfold dropFirstOfGroup
        rw [find?_filter_of_imp cols _ _ himp, hc₀]
      rw [hdrop, List.filter_filter]
      have hcongr : ∀ c ∈ cols,
          (decide (c ≠ c₀) && keepAfterGroups cols S c)
            = keepAfterGroups cols (S ++ [g]) c := by
        intro c _
        by_cases hLg : lowerStr c = g
        · have hfc : cols.find? (fun x => lowerStr x == lowerStr c)
              = some c₀ := by
            rw [hLg]
            exact hc₀
          unfold keepAfterGroups
          rw [hfc, hLg]
          by_cases hcc : c = c₀
          · subst hcc
            simp [hgS, hdup]
          · have hbeq : ((some c₀ : Option String) == some c) = false :=
              beq_eq_false_iff_ne.mpr
                (fun h => hcc (Option.some_inj.mp h).symm)
            simp [hcc, hgS, hdup, hbeq]
        · have hcc : c ≠ c₀ := fun h => hLg (h ▸ hc₀g)
          unfold keepAfterGroups
          simp [hcc, hLg, List.mem_append]
      rw [List.filter_congr hcongr, ih (S ++ [g]) hdisj' hnd', hassoc]
    · rw [if_neg hdup]
      have hcongr : ∀ c ∈ cols, keepAfterGroups cols S c
          = keepAfterGroups cols (S ++ [g]) c := by
        intro c _
        unfold keepAfterGroups
        by_cases hLg : lowerStr c = g
        · rw [hLg]
          simp [hgS, hdup]
        · simp [List.mem_append, hLg]
      rw [List.filter_congr hcongr, ih (S ++ [g]) hdisj' hnd', hassoc]

/-- C7 as amended: the export step drops, for each case-insensitive
duplicate group of column names, exactly the columns bearing the name of the
group's first-occurring column; the later occurrences of the group survive.
(The claim's "drops all but the first occurrence / the first survives" is
the opposite: with columns `["A", "a"]` the code drops `"A"` and keeps
`"a"`.) -/
theorem write_data_drops_first_of_each_group (cols : List String) :
    write_data_columns cols = cols.filter (survivesExport cols) := by
  have h0 : cols.filter (keepAfterGroups cols []) = cols := by
    refine List.filter_eq_self.mpr ?_
    intro c _
    unfold keepAfterGroups
    simp
  have hnd : (counterKeys cols).Nodup := (uniqueAux_nodup [] _).1
  have h := write_data_fold_inv cols (counterKeys cols) []
    (by intro g _ hin; simp at hin) hnd
  rw [h0, List.nil_append] at h
  unfold write_data_columns
  rw [h]
  refine List.filter_congr ?_
  intro c hc
  have hmem : lowerStr c ∈ counterKeys cols := by
    unfold counterKeys
    exact (mem_uniqueVals_iff _ _).mpr (List.mem_map.mpr ⟨c, hc, rfl⟩)
  unfold keepAfterGroups survivesExport
  simp [hmem]

/-- C7 counterexample: columns `["A", "a"]` form one case-insensitive
duplicate group; the code's export pass drops the **first** occurrence `"A"`
and keeps `"a"`, while the claim says all but the first occurrence are
dropped and the first survives (which would leave `["A"]`). -/
theorem write_data_counterexample :
    write_data_columns ["A", "a"] = ["a"] ∧ (["a"] : List String) ≠ ["A"] := by
  refine ⟨by decide, by decide⟩

theorem charOfNat_toNat (m : Nat) (h1 : 97 ≤ m) (h2 : m ≤ 122) :
    (Char.ofNat m).toNat = m := by
  have hv : m.isValidChar := Or.inl (by omega)
  rw [Char.ofNat, dif_pos hv]
  simp [Char.ofNatAux, Char.toNat, UInt32.toNat]

theorem toLower_eq_of_low {c t : Char} (ht : t.toNat < 97)
    (h : Char.toLower c = t) : c = t := by
  simp only [Char.toLower] at h
  split at h
  · exfalso
    rename_i hcond
    have h2 := congrArg Char.toNat h
    rw [charOfNat_toNat _ (by omega) (by omega)] at h2
    omega
  · exact h

theorem toLower_of_not_upper {c : Char}
    (h : ¬(c.toNat ≥ 65 ∧ c.toNat ≤ 90)) : Char.toLower c = c := by
  simp only [Char.toLower]
  rw [if_neg h]

theorem toLower_idem (c : Char) :
    Char.toLower (Char.toLower c) = Char.toLower c := by
  by_cases hc : c.toNat ≥ 65 ∧ c.toNat ≤ 90
  · have h1 : Char.toLower c = Char.ofNat (c.toNat + 32) := by
      simp only [Char.toLower]
      rw [if_pos hc]
    have h2 : (Char.toLower c).toNat = c.toNat + 32 := by
      rw [h1]
      exact charOfNat_toNat _ (by omega) (by omega)
    exact toLower_of_not_upper (by rw [h2]; omega)
  · rw [toLower_of_not_upper hc, toLower_of_not_upper hc]

theorem toLowerL_idem (s : List Char) : toLowerL (toLowerL s) = toLowerL s := by
  unfold toLowerL
  rw [List.map_map]
  exact List.map_congr_left (fun c _ => toLower_idem c)

theorem not_mem_toLowerL {t : Char} (ht : t.toNat < 97) (s : List Char)
    (h : t ∉ s) : t ∉ toLowerL s := by
  intro hmem
  obtain ⟨c, hc, hct⟩ := List.mem_map.mp hmem
  exact h ((toLower_eq_of_low ht hct) ▸ hc)

theorem splitOnChar_ne_nil (sep : Char) (l : List Char) :
    splitOnChar sep l ≠ [] := by
  cases l with
  | nil => simp [splitOnChar]
  | cons c cs =>
    simp only [splitOnChar]
    split
    · simp
    · split <;> simp

theorem sep_not_mem_of_mem_splitOnChar (sep : Char) :
    ∀ (l : List Char) (p : List Char), p ∈ splitOnChar sep l → sep ∉ p := by
  intro l
  induction l with
  | nil =>
    intro p hp
    simp [splitOnChar] at hp
    simp [hp]
  | cons c cs ih =>
    intro p hp
    rcases hrest : splitOnChar sep cs with _ | ⟨r, rs⟩
    · exact absurd hrest (splitOnChar_ne_nil sep cs)
    · simp only [splitOnChar, hrest] at hp
      by_cases hcs : c = sep
      · rw [if_pos hcs] at hp
        rcases List.mem_cons.mp hp with h1 | h1
        · simp [h1]
        · exact ih p (by rw [hrest]; exact h1)
      · rw [if_neg hcs] at hp
        rcases List.mem_cons.mp hp with h1 | h1
        · subst h1
          intro hmem
          rcases List.mem_cons.mp hmem with h2 | h2
          · exact hcs h2.symm
          · exact ih r (by rw [hrest]; exact List.mem_cons_self _ _) h2
        · exact ih p (by rw [hrest]; exact List.mem_cons_of_mem _ h1)

theorem mem_of_mem_splitOnChar (sep : Char) :
    ∀ (l : List Char) (p : List Char), p ∈ splitOnChar sep l →
      ∀ x ∈ p, x ∈ l := by
  intro l
  induction l with
  | nil =>
    intro p hp
    simp [splitOnChar] at hp
    simp [hp]
  | cons c cs ih =>
    intro p hp
    rcases hrest : splitOnChar sep cs with _ | ⟨r, rs⟩
    · exact absurd hrest (splitOnChar_ne_nil sep cs)
    · simp only [splitOnChar, hrest] at hp
      by_cases hcs : c = sep
      · rw [if_pos hcs] at hp
        rcases List.mem_cons.mp hp with h1 | h1
        · simp [h1]
        · exact fun x hx =>
            List.mem_cons_of_mem _ (ih p (by rw [hrest]; exact h1) x hx)
      · rw [if_neg hcs] at hp
        rcases List.mem_cons.mp hp with h1 | h1
        · subst h1
          intro x hx
          rcases List.mem_cons.mp hx with h2 | h2
          · exact h2 ▸ List.mem_cons_self _ _
          · exact List.mem_cons_of_mem _
              (ih r (by rw [hrest]; exact List.mem_cons_self _ _) x h2)
        · exact fun x hx => List.mem_cons_of_mem _
            (ih p (by rw [hrest]; exact List.mem_cons_of_mem _ h1) x hx)

theorem splitOnChar_of_not_mem (sep : Char) (l : List Char) (h : sep ∉ l) :
    splitOnChar sep l = [l] := by
  induction l with
  | nil => rfl
  | cons c cs ih =>
    have hcs : sep ∉ cs := fun hm => h (List.mem_cons_of_mem _ hm)
    have hc : c ≠ sep := fun he => h (he ▸ List.mem_cons_self _ _)
    simp only [splitOnChar, ih hcs]
    rw [if_neg hc]

theorem takeWhile_eq_self_of_all {α : Type} (p : α → Bool) (l : List α)
    (h : ∀ x ∈ l, p x = true) : l.takeWhile p = l := by
  induction l with
  | nil => rfl
  | cons x xs ih =>
    rw [List.takeWhile_cons_of_pos (h x (List.mem_cons_self x xs)),
      ih (fun y hy => h y (List.mem_cons_of_mem _ hy))]

theorem getD_mem_of_lt {α : Type} (l : List α) (i : Nat) (d : α)
    (h : i < l.length) : l.getD i d ∈ l := by
  rw [List.getD_eq_getElem?_getD, List.getElem?_eq_getElem h]
  simp only [Option.getD_some]
  exact List.getElem_mem h

theorem beforeChar_not_mem (sep : Char) (s : List Char) :
    sep ∉ beforeChar sep s := by
  intro hmem
  have h := List.mem_takeWhile_imp hmem
  simp at h

theorem afterLastChar_not_mem (sep : Char) (s : List Char) :
    sep ∉ afterLastChar sep s := by
  unfold afterLastChar
  have h := List.getLastD_mem_cons (splitOnChar sep s) []
  rcases List.mem_cons.mp h with h1 | h1
  · rw [h1]
    simp
  · exact sep_not_mem_of_mem_splitOnChar sep s _ h1

theorem afterLastChar_subset (sep : Char) (s : List Char) :
    ∀ x ∈ afterLastChar sep s, x ∈ s := by
  unfold afterLastChar
  have h := List.getLastD_mem_cons (splitOnChar sep s) []
  rcases List.mem_cons.mp h with h1 | h1
  · rw [h1]
    simp
  · exact fun x hx => mem_of_mem_splitOnChar sep s _ h1 x hx

theorem netloc_chars (s : List Char) :
    '/' ∉ netlocOf s ∧ ':' ∉ netlocOf s ∧ '@' ∉ netlocOf s := by
  unfold netlocOf
  refine ⟨?_, beforeChar_not_mem ':' _, ?_⟩
  · intro hmem
    have h1 : ('/' : Char) ∈ afterLastChar '@' (beforeChar '/' (stripScheme s)) :=
      List.takeWhile_subset _ hmem
    have h2 : ('/' : Char) ∈ beforeChar '/' (stripScheme s) :=
      afterLastChar_subset '@' _ _ h1
    exact (beforeChar_not_mem '/' _) h2
  · intro hmem
    have h1 : ('@' : Char) ∈ afterLastChar '@' (beforeChar '/' (stripScheme s)) :=
      List.takeWhile_subset _ hmem
    exact (afterLastChar_not_mem '@' _) h1

theorem tldDomain_cases (psl : List (List Char)) (s : List Char) :
    tldDomain psl s = [] ∨ tldDomain psl s ∈ labelsOf s := by
  simp only [tldDomain]
  split
  · exact Or.inl rfl
  · right
    apply getD_mem_of_lt
    have hne : labelsOf s ≠ [] := splitOnChar_ne_nil '.' _
    have hlen : 0 < (labelsOf s).length := List.length_pos.mpr hne
    omega

theorem tldDomain_chars (psl : List (List Char)) (s : List Char) :
    '.' ∉ tldDomain psl s ∧ '/' ∉ tldDomain psl s
    ∧ ':' ∉ tldDomain psl s ∧ '@' ∉ tldDomain psl s := by
  rcases tldDomain_cases psl s with h | h
  · rw [h]
    simp
  · have hsub : ∀ x ∈ tldDomain psl s, x ∈ netlocOf s :=
      mem_of_mem_splitOnChar '.' _ _ h
    obtain ⟨h1, h2, h3⟩ := netloc_chars s
    exact ⟨sep_not_mem_of_mem_splitOnChar '.' _ _ h,
      fun hm => h1 (hsub _ hm), fun hm => h2 (hsub _ hm),
      fun hm => h3 (hsub _ hm)⟩

theorem stripScheme_eq_self (s : List Char) (h1 : '/' ∉ s) (h2 : ':' ∉ s) :
    stripScheme s = s := by
  have hA : ¬ (s.take 2 = ['/', '/']) := by
    intro hA
    have hm : ('/' : Char) ∈ s.take 2 := by
      rw [hA]
      simp
    exact h1 (List.take_subset _ _ hm)
  have hB : ¬ ((s.takeWhile isSchemeChar) ≠ []
      ∧ ((s.drop (s.takeWhile isSchemeChar).length).take 3
          = [':', '/', '/'])) := by
    rintro ⟨-, hB⟩
    have hm : (':' : Char) ∈ (s.drop (s.takeWhile isSchemeChar).length).take 3 := by
      rw [hB]
      simp
    exact h2 (List.drop_subset _ _ (List.take_subset _ _ hm))
  simp only [stripScheme]
  rw [if_neg hA, if_neg hB]

/-- C9 counterexample to unrestricted idempotence: with a public-suffix list
containing both `nl` and `com` (as the real one does), extracting from
`"com.nl"` yields `"com"`, but extracting from `"com"` yields the empty
label (the whole host is a public suffix, so `tld.domain` is `""`), not
`"com"` again. -/
theorem get_domain_counterexample :
    get_domain [codes "nl", codes "com"] (PyVal.str (codes "com.nl"))
      = some (codes "com")
    ∧ get_domain [codes "nl", codes "com"] (PyVal.str (codes "com"))
      = some []
    ∧ some ([] : List Char) ≠ some (codes "com") := by
  refine ⟨by decide, by decide, by decide⟩

/-- C9 as amended: domain extraction is idempotent on every URL whose
extracted label is not itself a public suffix — if extraction returns `d`
and (the lowercase) `d` is not in the public-suffix list, extracting from
`d` returns `d` again — it is case-normalizing (extracting from
`"HTTP://Example.NL/path"` and from `"example.nl"` both yield `"example"`),
and a non-string input yields an absent value rather than raising. -/
theorem get_domain_amended (psl : List (List Char)) (url : PyVal)
    (d : List Char) (hd : get_domain psl url = some d)
    (hnp : toLowerL d ∉ psl) :
    get_domain psl (PyVal.str d) = some d
    ∧ get_domain psl PyVal.nonstr = none
    ∧ get_domain [codes "nl"] (PyVal.str (codes "HTTP://Example.NL/path"))
        = some (codes "example")
    ∧ get_domain [codes "nl"] (PyVal.str (codes "example.nl"))
        = some (codes "example") := by
  refine ⟨?_, rfl, by decide, by decide⟩
  rcases url with s | _
  · simp only [get_domain] at hd
    have hdd : d = toLowerL (tldDomain psl s) := (Option.some_inj.mp hd).symm
    obtain ⟨hdot, hslash, hcolon, hat⟩ := tldDomain_chars psl s
    have hdotd : '.' ∉ d := by
      rw [hdd]
      exact not_mem_toLowerL (by decide) _ hdot
    have hslashd : '/' ∉ d := by
      rw [hdd]
      exact not_mem_toLowerL (by decide) _ hslash
    have hcolond : ':' ∉ d := by
      rw [hdd]
      exact not_mem_toLowerL (by decide) _ hcolon
    have hatd : '@' ∉ d := by
      rw [hdd]
      exact not_mem_toLowerL (by decide) _ hat
    have hstrip : stripScheme d = d := stripScheme_eq_self d hslashd hcolond
    have hbefore : beforeChar '/' d = d := by
      refine takeWhile_eq_self_of_all _ _ ?_
      intro x hx
      simp only [decide_eq_true_eq]
      exact fun he => hslashd (he ▸ hx)
    have hafter : afterLastChar '@' d = d := by
      unfold afterLastChar
      rw [splitOnChar_of_not_mem '@' d hatd]
      rfl
    have hbc : beforeChar ':' d = d := by
      refine takeWhile_eq_self_of_all _ _ ?_
      intro x hx
      simp only [decide_eq_true_eq]
      exact fun he => hcolond (he ▸ hx)
    have hnet : netlocOf d = d := by
      unfold netlocOf
      rw [hstrip, hbefore, hafter, hbc]
    have hlab : labelsOf d = [d] := by
      unfold labelsOf
      rw [hnet]
      exact splitOnChar_of_not_mem '.' d hdotd
    have hld : toLowerL d = d := by
      rw [hdd]
      exact toLowerL_idem _
    have hsuf : suffixLen psl [d] = 0 := by
      have h1 : suffixLen psl [d]
          = if toLowerL (joinDots (([d] : List (List Char)).drop (1 - 1))) ∈ psl
            then 1 else suffixLenAux psl [d] 0 := rfl
      rw [h1, if_neg ?_]
      · rfl
      · intro hcon
        apply hnp
        simpa [joinDots] using hcon
    have hdom : tldDomain psl d = d := by
      simp only [tldDomain, hlab, hsuf]
      simp
    simp only [get_domain, hdom, hld]
  · simp [get_domain] at hd

/-- Witness for `get_domain_amended`: extraction from `"www.example.nl"`
yields `"example"`, which is not a public suffix, and re-extraction from
`"example"` yields `"example"` again. -/
theorem get_domain_amended_witness :
    get_domain [codes "nl"] (PyVal.str (codes "www.example.nl"))
      = some (codes "example")
    ∧ toLowerL (codes "example") ∉ [codes "nl"]
    ∧ get_domain [codes "nl"] (PyVal.str (codes "example"))
      = some (codes "example") := by
  refine ⟨by decide, by decide, ?_⟩
  exact (get_domain_amended [codes "nl"]
    (PyVal.str (codes "www.example.nl")) (codes "example")
    (by decide) (by decide)).1

end DomainAnalyse
